import Mathlib

/-!
Verification of the formatting module of `crates_io_og_image`
(`src/formatting.rs`).

The module contains two pure formatters, `format_bytes` and `format_number`,
and three serde adapters, `serialize_bytes`, `serialize_number` and
`serialize_optional_number`.

The Rust code computes with `f64`.  Every `f64` value that arises in this
module is modelled exactly as a rational number:

* a `u32` converted to `f64` is exact (every natural below `2 ^ 32 < 2 ^ 53`
  is representable);
* `f64` comparisons (`>=`, `<`) compare the represented rationals exactly;
* each division `value / divisor` produces the correctly rounded
  (IEEE-754 round-to-nearest, ties-to-even) double of the exact quotient;
  this rounding is the function `fl` below.  `fl` implements rounding to a
  53-bit significand for arguments in `[1, 2 ^ 64)`; the loop in the source
  only ever rounds quotients `v / d` with `v ≥ 1500` and `d ≤ 1024`, so the
  argument is always `≥ 1500 / 1024 > 1`, and always `< 2 ^ 32`.  For
  arguments below `1` (never reached) `fl` returns its argument unchanged.
* Rust's fixed-precision formatting `format!("{v:.p}")` prints the exact
  decimal value of the double rounded to `p` fractional digits with ties
  going to the even digit; for nonnegative `v` this is the function
  `decStr` below, built from the integer `rne (v * 10 ^ p)`.
-/

namespace CratesIoOgImage

/-- Round a rational to the nearest integer, ties to the even integer
(the rounding used both by IEEE-754 arithmetic and by Rust's
fixed-precision float formatting). -/
def rne (q : ℚ) : ℤ :=
  if Int.fract q < 1/2 then ⌊q⌋
  else if 1/2 < Int.fract q then ⌊q⌋ + 1
  else if ⌊q⌋ % 2 = 0 then ⌊q⌋ else ⌊q⌋ + 1

/-- Fuel-bounded base-2 logarithm on naturals; with fuel `f` it agrees with
`Nat.log 2` on all `n < 2 ^ f` (lemma `lg2_eq_log`).  A structurally
recursive definition is used so that it evaluates inside the kernel. -/
def lg2 : ℕ → ℕ → ℕ
  | 0, _ => 0
  | f + 1, n => if 2 ≤ n then lg2 f (n / 2) + 1 else 0

/-- Correct rounding of a rational to the nearest IEEE-754 double
(53-bit significand, round-to-nearest, ties-to-even), for arguments in
`[1, 2 ^ 64)`: the binade exponent of `q` is `lg2 64 ⌊q⌋₊`, and `q` is
rounded to an integer multiple of `2 ^ (e - 52)`.  Arguments below `1`
are returned unchanged; the formatters only round quotients `v / d` with
`v ≥ 1500, d ≤ 1024`, which are `> 1` and `< 2 ^ 32`. -/
def fl (q : ℚ) : ℚ :=
  if q < 1 then q
  else if lg2 64 ⌊q⌋₊ ≤ 52 then
    (rne (q * 2 ^ (52 - lg2 64 ⌊q⌋₊)) : ℚ) / 2 ^ (52 - lg2 64 ⌊q⌋₊)
  else
    (rne (q / 2 ^ (lg2 64 ⌊q⌋₊ - 52)) : ℚ) * 2 ^ (lg2 64 ⌊q⌋₊ - 52)

/-- Rust's `format!("{v:.p}")` for a nonnegative double `v`: the exact value
rounded to `p` fractional digits (ties to even), printed with exactly `p`
digits after the decimal point, and with no point when `p = 0`. -/
def decStr (v : ℚ) (p : ℕ) : String :=
  if p = 0 then Nat.repr (rne (v * 10 ^ p)).toNat
  else
    Nat.repr ((rne (v * 10 ^ p)).toNat / 10 ^ p) ++ "." ++
      (String.mk (List.replicate
          (p - (Nat.repr ((rne (v * 10 ^ p)).toNat % 10 ^ p)).length) '0') ++
        Nat.repr ((rne (v * 10 ^ p)).toNat % 10 ^ p))

/-- `const THRESHOLD: f64 = 1500.;` (same constant in both formatters). -/
def THRESHOLD : ℚ := 1500

/-- `const UNITS: &[&str] = &["B", "KiB", "MiB"];` of `format_bytes`. -/
def BYTE_UNITS : List String := ["B", "KiB", "MiB"]

/-- `const UNITS: &[&str] = &["", "K", "M"];` of `format_number`. -/
def NUMBER_UNITS : List String := ["", "K", "M"]

/-- The scaling loop shared by both formatters:
`while value >= THRESHOLD && unit_index < UNITS.len() - 1
   { value /= divisor; unit_index += 1; }`.
The fuel argument is `UNITS.len() - 1 - unit_index` (so the guard
`unit_index < UNITS.len() - 1` is exactly "fuel not exhausted"), and each
division result is rounded to a double by `fl`.  Returns the final
`(value, unit_index)`. -/
def scaleGo (d : ℚ) : ℕ → ℚ → ℕ → ℚ × ℕ
  | 0, v, i => (v, i)
  | f + 1, v, i => if THRESHOLD ≤ v then scaleGo d f (fl (v / d)) (i + 1) else (v, i)

/-- `pub fn format_bytes(bytes: u32) -> String` of `src/formatting.rs`.
The `u32` argument is modelled as `ℕ` (claims quantify over `n < 2 ^ 32`);
`bytes as f64` is exact. -/
def format_bytes (bytes : ℕ) : String :=
  let p := scaleGo 1024 (BYTE_UNITS.length - 1) (bytes : ℚ) 0
  let unit := BYTE_UNITS.getD p.2 ""
  if p.2 = 0 then Nat.repr bytes ++ " " ++ unit
  else if p.1 < 10 then decStr p.1 2 ++ " " ++ unit
  else if p.1 < 100 then decStr p.1 1 ++ " " ++ unit
  else decStr p.1 0 ++ " " ++ unit

/-- `pub fn format_number(number: u32) -> String` of `src/formatting.rs`. -/
def format_number (number : ℕ) : String :=
  let p := scaleGo 1000 (NUMBER_UNITS.length - 1) (number : ℚ) 0
  let unit := NUMBER_UNITS.getD p.2 ""
  if p.2 = 0 then Nat.repr number
  else if p.1 < 10 then decStr p.1 1 ++ unit
  else decStr p.1 0 ++ unit

/-- The slice of the serde `Serializer` trait consumed by this module: a
"write a string value" operation and a "write an explicit absent value"
operation, each free to fail with a serializer-defined error. -/
structure Serializer (Ok Err : Type) where
  serializeStr : String → Except Err Ok
  serializeNone : Except Err Ok

/-- `pub fn serialize_bytes<S: Serializer>(bytes: &u32, serializer: S)`. -/
def serialize_bytes {Ok Err : Type} (bytes : ℕ) (s : Serializer Ok Err) :
    Except Err Ok :=
  s.serializeStr (format_bytes bytes)

/-- `pub fn serialize_number<S: Serializer>(number: &u32, serializer: S)`. -/
def serialize_number {Ok Err : Type} (number : ℕ) (s : Serializer Ok Err) :
    Except Err Ok :=
  s.serializeStr (format_number number)

/-- `pub fn serialize_optional_number<S: Serializer>(opt_number: &Option<u32>,
serializer: S)`. -/
def serialize_optional_number {Ok Err : Type} (opt_number : Option ℕ)
    (s : Serializer Ok Err) : Except Err Ok :=
  match opt_number with
  | some number => s.serializeStr (format_number number)
  | none => s.serializeNone

/-- Observable events of one adapter call: a formatter producing a string,
the serializer being handed a string value, or the serializer being asked
for its absent value. -/
inductive Effect where
  | formatted : String → Effect
  | wroteStr : String → Effect
  | wroteNone : Effect
  deriving DecidableEq

/-- Event trace of `serialize_number`: it formats its argument and hands the
result to the serializer's string operation. -/
def serialize_number_effects (number : ℕ) : List Effect :=
  [Effect.formatted (format_number number), Effect.wroteStr (format_number number)]

/-- Event trace of `serialize_optional_number`: the `Some` branch formats and
writes the string exactly as `serialize_number`; the `None` branch performs
the serializer's absent operation only. -/
def serialize_optional_number_effects : Option ℕ → List Effect
  | some number =>
      [Effect.formatted (format_number number), Effect.wroteStr (format_number number)]
  | none => [Effect.wroteNone]

/-! ### Basic facts about the rounding functions -/

theorem rne_ge (q : ℚ) : q - 1/2 ≤ (rne q : ℚ) := by
  have h1 : (⌊q⌋ : ℚ) ≤ q := Int.floor_le q
  have h2 : q < ⌊q⌋ + 1 := Int.lt_floor_add_one q
  unfold rne
  simp only [Int.fract]
  split_ifs <;> push_cast <;> linarith

theorem rne_le (q : ℚ) : (rne q : ℚ) ≤ q + 1/2 := by
  have h1 : (⌊q⌋ : ℚ) ≤ q := Int.floor_le q
  unfold rne
  simp only [Int.fract]
  split_ifs <;> push_cast at * <;> linarith

theorem rne_intCast (n : ℤ) : rne (n : ℚ) = n := by
  unfold rne
  rw [Int.fract_intCast, if_pos (by norm_num), Int.floor_intCast]

/-- Evaluation rule for `rne` when the argument sits in the lower half of an
integer step (also covers exact integers). -/
theorem rne_eval_lo {q : ℚ} {n : ℤ} (h1 : (n : ℚ) ≤ q) (h2 : q < (n : ℚ) + 1/2) :
    rne q = n := by
  have hf : ⌊q⌋ = n := Int.floor_eq_iff.2 ⟨h1, by linarith⟩
  unfold rne
  simp only [Int.fract, hf]
  rw [if_pos (by linarith)]

/-- Evaluation rule for `rne` when the argument sits in the upper half of an
integer step (rounds up to `n`). -/
theorem rne_eval_hi {q : ℚ} {n : ℤ} (h1 : (n : ℚ) - 1/2 < q) (h2 : q < (n : ℚ)) :
    rne q = n := by
  have hf : ⌊q⌋ = n - 1 := Int.floor_eq_iff.2 ⟨by push_cast; linarith, by push_cast; linarith⟩
  unfold rne
  simp only [Int.fract, hf]
  rw [if_neg (by push_cast; linarith), if_pos (by push_cast; linarith)]
  omega

/-- Evaluation rule for `⌊·⌋₊` on nonnegative rationals. -/
theorem nfloor_eval {q : ℚ} {n : ℕ} (h1 : (n : ℚ) ≤ q) (h2 : q < (n : ℚ) + 1) :
    ⌊q⌋₊ = n :=
  (Nat.floor_eq_iff (le_trans (by positivity) h1)).2 ⟨h1, h2⟩

theorem lg2_eq_log (f : ℕ) : ∀ n, n < 2 ^ f → lg2 f n = Nat.log 2 n := by
  induction f with
  | zero =>
      intro n h
      have hn : n = 0 := by simpa using h
      subst hn
      show (0 : ℕ) = Nat.log 2 0
      simp
  | succ f ih =>
      intro n h
      have hstep : lg2 (f + 1) n = if 2 ≤ n then lg2 f (n / 2) + 1 else 0 := rfl
      by_cases h2 : 2 ≤ n
      · have hd : n / 2 < 2 ^ f := by
          rw [Nat.div_lt_iff_lt_mul (by norm_num)]
          rw [pow_succ] at h
          exact h
        have hlog : Nat.log 2 n = Nat.log 2 (n / 2) + 1 := by
          have hpos : 0 < Nat.log 2 n := Nat.log_pos (by norm_num) h2
          have hdb := Nat.log_div_base 2 n
          omega
        rw [hstep, if_pos h2, ih (n / 2) hd, hlog]
      · have hlt : n < 2 := by omega
        rw [hstep, if_neg h2, Nat.log_of_lt hlt]

/-- Evaluation rule for `fl` from the pieces: the natural floor, the binade
exponent and the rounded scaled significand. -/
theorem fl_eval {q : ℚ} {nf e : ℕ} {m : ℤ} (h1 : ¬ q < 1) (hnf : ⌊q⌋₊ = nf)
    (he : lg2 64 nf = e) (he52 : e ≤ 52) (hm : rne (q * 2 ^ (52 - e)) = m) :
    fl q = (m : ℚ) / 2 ^ (52 - e) := by
  rw [fl, if_neg h1, hnf, he, if_pos he52, hm]

/-- The double rounding `fl` moves a value `q ∈ [1, 2 ^ (k + 1))`, `k ≤ 52`,
by at most half an ulp, which is at most `2 ^ k / 2 ^ 53`. -/
theorem fl_bounds {q : ℚ} {k : ℕ} (h1 : 1 ≤ q) (hk : k ≤ 52) (hq : q < 2 ^ (k + 1)) :
    q - (2 : ℚ) ^ k / 2 ^ 53 ≤ fl q ∧ fl q ≤ q + (2 : ℚ) ^ k / 2 ^ 53 := by
  have h0 : (0 : ℚ) ≤ q := by linarith
  have hfl_lt : (⌊q⌋₊ : ℚ) < 2 ^ (k + 1) := lt_of_le_of_lt (Nat.floor_le h0) hq
  have hfln : ⌊q⌋₊ < 2 ^ (k + 1) := by exact_mod_cast hfl_lt
  have hfl64 : ⌊q⌋₊ < 2 ^ 64 :=
    lt_of_lt_of_le hfln (Nat.pow_le_pow_right (by norm_num) (by omega))
  have hq1 : ¬ q < 1 := not_lt.2 h1
  rw [fl, if_neg hq1]
  have he_eq : lg2 64 ⌊q⌋₊ = Nat.log 2 ⌊q⌋₊ := lg2_eq_log 64 _ hfl64
  have hek : lg2 64 ⌊q⌋₊ ≤ k := by
    rw [he_eq]
    rcases Nat.eq_zero_or_pos ⌊q⌋₊ with hz | hpos
    · simp [hz]
    · exact Nat.lt_succ_iff.1 (Nat.log_lt_of_lt_pow (by omega) hfln)
  have he52 : lg2 64 ⌊q⌋₊ ≤ 52 := hek.trans hk
  rw [if_pos he52]
  have hp : (0 : ℚ) < 2 ^ (52 - lg2 64 ⌊q⌋₊) := by positivity
  have hr1 := rne_ge (q * 2 ^ (52 - lg2 64 ⌊q⌋₊))
  have hr2 := rne_le (q * 2 ^ (52 - lg2 64 ⌊q⌋₊))
  have hpows : (2 : ℚ) ^ lg2 64 ⌊q⌋₊ * 2 ^ (52 - lg2 64 ⌊q⌋₊) = 2 ^ 52 := by
    rw [← pow_add]
    congr 1
    omega
  have hpk : (2 : ℚ) ^ lg2 64 ⌊q⌋₊ ≤ 2 ^ k := pow_le_pow_right₀ (by norm_num) hek
  have hbig : (2 : ℚ) ^ 52 ≤ 2 ^ k * 2 ^ (52 - lg2 64 ⌊q⌋₊) := by
    rw [← hpows]
    exact mul_le_mul_of_nonneg_right hpk (le_of_lt hp)
  have h52 : ((2 : ℚ) ^ 52) / 2 ^ 53 = 1 / 2 := by norm_num
  have haux : (1 : ℚ) / 2 ≤ 2 ^ k * 2 ^ (52 - lg2 64 ⌊q⌋₊) / 2 ^ 53 := by
    rw [← h52]
    exact (div_le_div_iff_of_pos_right (by norm_num)).2 hbig
  constructor
  · rw [le_div_iff₀ hp]
    have hexp : (q - 2 ^ k / 2 ^ 53) * 2 ^ (52 - lg2 64 ⌊q⌋₊) =
        q * 2 ^ (52 - lg2 64 ⌊q⌋₊) - 2 ^ k * 2 ^ (52 - lg2 64 ⌊q⌋₊) / 2 ^ 53 := by
      ring
    rw [hexp]
    linarith
  · rw [div_le_iff₀ hp]
    have hexp : (q + 2 ^ k / 2 ^ 53) * 2 ^ (52 - lg2 64 ⌊q⌋₊) =
        q * 2 ^ (52 - lg2 64 ⌊q⌋₊) + 2 ^ k * 2 ^ (52 - lg2 64 ⌊q⌋₊) / 2 ^ 53 := by
      ring
    rw [hexp]
    linarith

/-- Naturals below `2 ^ 53` are exactly representable as doubles, so `fl`
fixes them. -/
theorem fl_natCast {m : ℕ} (h1 : 1 ≤ m) (h2 : m < 2 ^ 53) : fl (m : ℚ) = m := by
  have hq1 : ¬ ((m : ℚ) < 1) := not_lt.2 (by exact_mod_cast h1)
  have hnf : ⌊(m : ℚ)⌋₊ = m := Nat.floor_natCast m
  have h64 : m < 2 ^ 64 := lt_of_lt_of_le h2 (Nat.pow_le_pow_right (by norm_num) (by norm_num))
  have he_eq : lg2 64 m = Nat.log 2 m := lg2_eq_log 64 m h64
  have he52 : Nat.log 2 m ≤ 52 := Nat.lt_succ_iff.1 (Nat.log_lt_of_lt_pow (by omega) h2)
  rw [fl, if_neg hq1, hnf, he_eq, if_pos he52]
  have hcast : (m : ℚ) * 2 ^ (52 - Nat.log 2 m) =
      (((m * 2 ^ (52 - Nat.log 2 m) : ℕ) : ℤ) : ℚ) := by
    push_cast
    ring
  rw [hcast, rne_intCast]
  push_cast
  exact mul_div_cancel_right₀ _ (by positivity)

/-! ### Unfolding rules for the scaling loop -/

theorem scaleGo_zero (d v : ℚ) (i : ℕ) : scaleGo d 0 v i = (v, i) := rfl

theorem scaleGo_one (d v : ℚ) (i : ℕ) :
    scaleGo d 1 v i = if THRESHOLD ≤ v then (fl (v / d), i + 1) else (v, i) := rfl

theorem scaleGo_two (d v : ℚ) (i : ℕ) :
    scaleGo d 2 v i =
      if THRESHOLD ≤ v then scaleGo d 1 (fl (v / d)) (i + 1) else (v, i) := rfl

theorem scaleGo_snd_le (d : ℚ) (f : ℕ) : ∀ (v : ℚ) (i : ℕ), (scaleGo d f v i).2 ≤ i + f := by
  induction f with
  | zero => intro v i; simp [scaleGo_zero]
  | succ f ih =>
      intro v i
      have hstep : scaleGo d (f + 1) v i =
          if THRESHOLD ≤ v then scaleGo d f (fl (v / d)) (i + 1) else (v, i) := rfl
      rw [hstep]
      split_ifs with h
      · exact le_trans (ih _ _) (by omega)
      · simp

theorem byte_fuel : BYTE_UNITS.length - 1 = 2 := rfl

theorem number_fuel : NUMBER_UNITS.length - 1 = 2 := rfl

/-! ### How the scaling loop behaves on each input tier of `format_number` -/

theorem scale_low {d : ℚ} {n : ℕ} (h : n < 1500) :
    scaleGo d 2 (n : ℚ) 0 = ((n : ℚ), 0) := by
  rw [scaleGo_two, if_neg]
  simp only [THRESHOLD]
  exact not_le.2 (by exact_mod_cast h)

theorem scale_number_mid {n : ℕ} (h1 : 1500 ≤ n) (h2 : n < 1500000) :
    scaleGo 1000 2 (n : ℚ) 0 = (fl ((n : ℚ) / 1000), 1) ∧
      1 ≤ fl ((n : ℚ) / 1000) ∧ fl ((n : ℚ) / 1000) < 1500 := by
  have hc1 : (1500 : ℚ) ≤ (n : ℚ) := by exact_mod_cast h1
  have hc2 : (n : ℚ) ≤ 1499999 := by exact_mod_cast Nat.lt_succ_iff.1 h2
  have hq15 : (3 / 2 : ℚ) ≤ (n : ℚ) / 1000 := by
    rw [le_div_iff₀ (by norm_num)]
    linarith
  have hq1 : (1 : ℚ) ≤ (n : ℚ) / 1000 := by linarith
  have hqub : (n : ℚ) / 1000 < 2 ^ (10 + 1) := by
    rw [div_lt_iff₀ (by norm_num)]
    norm_num
    linarith
  obtain ⟨hlow, hhigh⟩ := fl_bounds hq1 (by norm_num) hqub
  have hub : fl ((n : ℚ) / 1000) < 1500 := by
    have hd : (n : ℚ) / 1000 ≤ 1499999 / 1000 :=
      (div_le_div_iff_of_pos_right (by norm_num)).2 hc2
    have hlit : (1499999 : ℚ) / 1000 + 2 ^ 10 / 2 ^ 53 < 1500 := by norm_num
    linarith
  have hlb : 1 ≤ fl ((n : ℚ) / 1000) := by
    have hlit : (2 : ℚ) ^ 10 / 2 ^ 53 ≤ 1 / 2 := by norm_num
    linarith
  refine ⟨?_, hlb, hub⟩
  rw [scaleGo_two, if_pos (show THRESHOLD ≤ (n : ℚ) by simpa only [THRESHOLD] using hc1),
    scaleGo_one, if_neg (show ¬ THRESHOLD ≤ fl ((n : ℚ) / 1000) by
      simp only [THRESHOLD]; exact not_le.2 hub)]

theorem scale_number_high {n : ℕ} (h1 : 1500000 ≤ n) (h2 : n < 2 ^ 32) :
    scaleGo 1000 2 (n : ℚ) 0 = (fl (fl ((n : ℚ) / 1000) / 1000), 2) ∧
      1 ≤ fl (fl ((n : ℚ) / 1000) / 1000) ∧ fl (fl ((n : ℚ) / 1000) / 1000) < 4400 := by
  have hc1 : (1500000 : ℚ) ≤ (n : ℚ) := by exact_mod_cast h1
  have hc2 : (n : ℚ) < 4294967296 := by exact_mod_cast h2
  have hq1500 : (1500 : ℚ) ≤ (n : ℚ) / 1000 := by
    rw [le_div_iff₀ (by norm_num)]
    linarith
  have hq1 : (1 : ℚ) ≤ (n : ℚ) / 1000 := by linarith
  have hqub : (n : ℚ) / 1000 < 2 ^ (22 + 1) := by
    rw [div_lt_iff₀ (by norm_num)]
    norm_num
    linarith
  obtain ⟨hlo1, hhi1⟩ := fl_bounds hq1 (by norm_num) hqub
  have hv1_ge : (1500 : ℚ) ≤ fl ((n : ℚ) / 1000) := by
    rcases eq_or_lt_of_le h1 with heq | hlt
    · have hq : (n : ℚ) / 1000 = ((1500 : ℕ) : ℚ) := by
        rw [← heq]
        push_cast
        norm_num
      rw [hq, fl_natCast (by norm_num) (by norm_num)]
      norm_num
    · have hge : (1500001 : ℚ) ≤ (n : ℚ) := by exact_mod_cast hlt
      have hd : (1500001 : ℚ) / 1000 ≤ (n : ℚ) / 1000 :=
        (div_le_div_iff_of_pos_right (by norm_num)).2 hge
      have hlit : (1500 : ℚ) ≤ 1500001 / 1000 - 2 ^ 22 / 2 ^ 53 := by norm_num
      linarith
  have hv1_ub : fl ((n : ℚ) / 1000) < 4294968 := by
    have hd : (n : ℚ) / 1000 < 4294967296 / 1000 :=
      (div_lt_div_iff_of_pos_right (by norm_num)).2 hc2
    have hlit : (4294967296 : ℚ) / 1000 + 2 ^ 22 / 2 ^ 53 < 4294968 := by norm_num
    linarith
  have hq2_15 : (3 / 2 : ℚ) ≤ fl ((n : ℚ) / 1000) / 1000 := by
    rw [le_div_iff₀ (by norm_num)]
    linarith
  have hq2_1 : (1 : ℚ) ≤ fl ((n : ℚ) / 1000) / 1000 := by linarith
  have hq2_ub : fl ((n : ℚ) / 1000) / 1000 < 2 ^ (12 + 1) := by
    rw [div_lt_iff₀ (by norm_num)]
    norm_num
    linarith
  obtain ⟨hlo2, hhi2⟩ := fl_bounds hq2_1 (by norm_num) hq2_ub
  have hv2_ge : (1 : ℚ) ≤ fl (fl ((n : ℚ) / 1000) / 1000) := by
    have hlit : (2 : ℚ) ^ 12 / 2 ^ 53 ≤ 1 / 2 := by norm_num
    linarith
  have hv2_ub : fl (fl ((n : ℚ) / 1000) / 1000) < 4400 := by
    have hd : fl ((n : ℚ) / 1000) / 1000 < 4294968 / 1000 :=
      (div_lt_div_iff_of_pos_right (by norm_num)).2 hv1_ub
    have hlit : (4294968 : ℚ) / 1000 + 2 ^ 12 / 2 ^ 53 < 4400 := by norm_num
    linarith
  refine ⟨?_, hv2_ge, hv2_ub⟩
  rw [scaleGo_two, if_pos (show THRESHOLD ≤ (n : ℚ) by simp only [THRESHOLD]; linarith),
    scaleGo_one, if_pos (show THRESHOLD ≤ fl ((n : ℚ) / 1000) by
      simp only [THRESHOLD]; linarith)]

/-! ### Length of the fixed-precision rendering -/

theorem decStr_zero_len {v : ℚ} (h0 : 0 ≤ v) (hv : v < 9999) :
    (decStr v 0).length ≤ 4 := by
  rw [decStr, if_pos rfl]
  simp only [pow_zero, mul_one]
  have hge := rne_ge v
  have hle := rne_le v
  have hN0 : 0 ≤ rne v := by
    by_contra hneg
    push_neg at hneg
    have h1 : rne v ≤ -1 := by omega
    have h1q : (rne v : ℚ) ≤ -1 := by exact_mod_cast h1
    linarith
  have hNle : rne v < 10000 := by
    have : (rne v : ℚ) < 10000 := by linarith
    exact_mod_cast this
  exact Nat.repr_length _ 4 (by norm_num) (by omega)

theorem decStr_one_len {v : ℚ} (h0 : 0 ≤ v) (hv : v < 99) :
    (decStr v 1).length ≤ 4 := by
  rw [decStr, if_neg (by norm_num)]
  simp only [pow_one]
  have hge := rne_ge (v * 10)
  have hle := rne_le (v * 10)
  have hN0 : 0 ≤ rne (v * 10) := by
    by_contra hneg
    push_neg at hneg
    have h1 : rne (v * 10) ≤ -1 := by omega
    have h1q : (rne (v * 10) : ℚ) ≤ -1 := by exact_mod_cast h1
    linarith
  have hNle : rne (v * 10) < 1000 := by
    have : (rne (v * 10) : ℚ) < 1000 := by linarith
    exact_mod_cast this
  have hfp : (rne (v * 10)).toNat % 10 < 10 := Nat.mod_lt _ (by norm_num)
  have hfplen : (Nat.repr ((rne (v * 10)).toNat % 10)).length ≤ 1 :=
    Nat.repr_length _ 1 (by norm_num) (by omega)
  have hiplen : (Nat.repr ((rne (v * 10)).toNat / 10)).length ≤ 2 :=
    Nat.repr_length _ 2 (by norm_num) (by omega)
  simp only [String.length_append, String.length_mk, List.length_replicate,
    show (".").length = 1 from rfl]
  omega

/-! ### Unfolding the formatters on each tier -/

theorem format_bytes_low {n : ℕ} (h : n < 1500) :
    format_bytes n = Nat.repr n ++ " B" := by
  simp only [format_bytes, byte_fuel, scale_low h, if_true,
    show BYTE_UNITS.getD 0 "" = "B" from rfl]
  rw [String.append_assoc, show (" " ++ "B" : String) = " B" from rfl]

theorem format_number_low {n : ℕ} (h : n < 1500) :
    format_number n = Nat.repr n := by
  simp only [format_number, number_fuel, scale_low h, if_true]

theorem format_number_scaled {n : ℕ} {v : ℚ} {j : ℕ}
    (h : scaleGo 1000 2 (n : ℚ) 0 = (v, j)) (hj : j ≠ 0) :
    format_number n =
      (if v < 10 then decStr v 1 else decStr v 0) ++ NUMBER_UNITS.getD j "" := by
  simp only [format_number, number_fuel, h, if_neg hj]
  split_ifs <;> rfl

theorem bytes_unit_mem {j : ℕ} (h : j ≤ 2) : BYTE_UNITS.getD j "" ∈ BYTE_UNITS := by
  interval_cases j <;> decide

theorem number_unit_mem {j : ℕ} (h : j ≤ 2) : NUMBER_UNITS.getD j "" ∈ NUMBER_UNITS := by
  interval_cases j <;> decide

/-! ### Claim theorems -/

/-- C7: for every input `b ≤ 1499`, `format_bytes b` is the decimal
representation of `b` followed by a space and `"B"`. -/
theorem format_bytes_plain_tier (b : ℕ) (h : b ≤ 1499) :
    format_bytes b = Nat.repr b ++ " B" :=
  format_bytes_low (by omega)

theorem format_bytes_plain_tier_witness : 0 ≤ 1499 ∧ format_bytes 0 = "0 B" :=
  ⟨by norm_num, by rw [format_bytes_plain_tier 0 (by norm_num)]; rfl⟩

/-- C8: for every input `n ≤ 1499`, `format_number n` is exactly the decimal
representation of `n`, with no suffix and no space. -/
theorem format_number_plain_tier (n : ℕ) (h : n ≤ 1499) :
    format_number n = Nat.repr n :=
  format_number_low (by omega)

theorem format_number_plain_tier_witness : 0 ≤ 1499 ∧ format_number 0 = "0" :=
  ⟨by norm_num, by rw [format_number_plain_tier 0 (by norm_num)]; rfl⟩

/-- C9: for `1500 ≤ n < 1500000` the output of `format_number` ends in `"K"`;
for `1500000 ≤ n < 2 ^ 32` (any remaining `u32`) it ends in `"M"`. -/
theorem format_number_suffix_tiers (n : ℕ) :
    (1500 ≤ n → n < 1500000 → ∃ s, format_number n = s ++ "K") ∧
    (1500000 ≤ n → n < 2 ^ 32 → ∃ s, format_number n = s ++ "M") := by
  constructor
  · intro h1 h2
    obtain ⟨hs, _, _⟩ := scale_number_mid h1 h2
    rw [format_number_scaled hs (by norm_num)]
    exact ⟨_, rfl⟩
  · intro h1 h2
    obtain ⟨hs, _, _⟩ := scale_number_high h1 h2
    rw [format_number_scaled hs (by norm_num)]
    exact ⟨_, rfl⟩

theorem format_number_suffix_tiers_witness :
    ((1500 : ℕ) ≤ 2000 ∧ (2000 : ℕ) < 1500000 ∧ ∃ s, format_number 2000 = s ++ "K") ∧
    ((1500000 : ℕ) ≤ 2000000 ∧ (2000000 : ℕ) < 2 ^ 32 ∧ ∃ s, format_number 2000000 = s ++ "M") :=
  ⟨⟨by norm_num, by norm_num,
      (format_number_suffix_tiers 2000).1 (by norm_num) (by norm_num)⟩,
    ⟨by norm_num, by norm_num,
      (format_number_suffix_tiers 2000000).2 (by norm_num) (by norm_num)⟩⟩

/-- C10: for every `u32` input the numeric portion of `format_number` (the
rendered value, before the suffix drawn from the unit table) is at most 4
characters long, including in the capped `"M"` tier where the scaled value
stays below 4295 and is printed with 0 decimal places. -/
theorem format_number_numeric_len (n : ℕ) (h : n < 2 ^ 32) :
    ∃ s u, format_number n = s ++ u ∧ s.length ≤ 4 ∧ u ∈ NUMBER_UNITS := by
  rcases lt_or_ge n 1500 with h0 | h0
  · refine ⟨Nat.repr n, "", ?_, ?_, by decide⟩
    · rw [format_number_low h0, String.append_empty]
    · exact Nat.repr_length _ 4 (by norm_num) (by omega)
  rcases lt_or_ge n 1500000 with h1 | h1
  · obtain ⟨hs, hlb, hub⟩ := scale_number_mid h0 h1
    rw [format_number_scaled hs (by norm_num)]
    refine ⟨_, "K", rfl, ?_, by decide⟩
    split_ifs with hv
    · exact decStr_one_len (by linarith) (by linarith)
    · exact decStr_zero_len (by linarith) (by linarith)
  · obtain ⟨hs, hlb, hub⟩ := scale_number_high h1 h
    rw [format_number_scaled hs (by norm_num)]
    refine ⟨_, "M", rfl, ?_, by decide⟩
    split_ifs with hv
    · exact decStr_one_len (by linarith) (by linarith)
    · exact decStr_zero_len (by linarith) (by linarith)

theorem format_number_numeric_len_witness :
    (0 : ℕ) < 2 ^ 32 ∧ ∃ s u, format_number 0 = s ++ u ∧ s.length ≤ 4 ∧ u ∈ NUMBER_UNITS :=
  ⟨by norm_num, format_number_numeric_len 0 (by norm_num)⟩

/-! ### Concrete evaluations -/

theorem format_bytes_scaled {n : ℕ} {v : ℚ} {j : ℕ}
    (h : scaleGo 1024 2 (n : ℚ) 0 = (v, j)) (hj : j ≠ 0) :
    format_bytes n =
      (if v < 10 then decStr v 2 else if v < 100 then decStr v 1 else decStr v 0) ++
        " " ++ BYTE_UNITS.getD j "" := by
  simp only [format_bytes, byte_fuel, h, if_neg hj]
  split_ifs <;> rfl

/-- Evaluation of `format_number 999999`: the loop divides once
(`fl (999999 / 1000) < 1500`), and the display rounding then carries the
value up to `1000`, giving `"1000K"`. -/
theorem format_number_999999_eval : format_number 999999 = "1000K" := by
  have hnf1 : ⌊(999999 : ℚ) / 1000⌋₊ = 999 := nfloor_eval (by norm_num) (by norm_num)
  have hm1 : rne ((999999 : ℚ) / 1000 * 2 ^ 43) = 8796084226114978 :=
    rne_eval_hi (by norm_num) (by norm_num)
  have hfl1 : fl ((999999 : ℚ) / 1000) = (8796084226114978 : ℚ) / 2 ^ 43 :=
    fl_eval (by norm_num) hnf1 rfl (by decide) hm1
  have hcast : ((999999 : ℕ) : ℚ) = (999999 : ℚ) := by norm_num
  have hs : scaleGo 1000 2 ((999999 : ℕ) : ℚ) 0 = ((8796084226114978 : ℚ) / 2 ^ 43, 1) := by
    rw [hcast, scaleGo_two, if_pos (show THRESHOLD ≤ (999999 : ℚ) by
        simp only [THRESHOLD]; norm_num), hfl1, scaleGo_one,
      if_neg (show ¬ THRESHOLD ≤ (8796084226114978 : ℚ) / 2 ^ 43 by
        simp only [THRESHOLD]; norm_num)]
  have hr : rne ((8796084226114978 : ℚ) / 2 ^ 43 * 10 ^ 0) = 1000 :=
    rne_eval_hi (by norm_num) (by norm_num)
  rw [format_number_scaled hs (by norm_num),
    if_neg (show ¬ (8796084226114978 : ℚ) / 2 ^ 43 < 10 by norm_num),
    decStr, if_pos rfl, hr]
  rfl

/-- Evaluation of `format_bytes 10235`: one division, the exact value
`10235 / 1024 = 9.9951171875` stays in the two-decimals branch, and rounding
to two decimals carries it up to `"10.00"`, a five-character numeric part. -/
theorem format_bytes_10235_eval : format_bytes 10235 = "10.00 KiB" := by
  have hnf1 : ⌊(10235 : ℚ) / 1024⌋₊ = 9 := nfloor_eval (by norm_num) (by norm_num)
  have hm1 : rne ((10235 : ℚ) / 1024 * 2 ^ 49) = 5626750755143680 :=
    rne_eval_lo (by norm_num) (by norm_num)
  have hfl1 : fl ((10235 : ℚ) / 1024) = (5626750755143680 : ℚ) / 2 ^ 49 :=
    fl_eval (by norm_num) hnf1 rfl (by decide) hm1
  have hcast : ((10235 : ℕ) : ℚ) = (10235 : ℚ) := by norm_num
  have hs : scaleGo 1024 2 ((10235 : ℕ) : ℚ) 0 = ((5626750755143680 : ℚ) / 2 ^ 49, 1) := by
    rw [hcast, scaleGo_two, if_pos (show THRESHOLD ≤ (10235 : ℚ) by
        simp only [THRESHOLD]; norm_num), hfl1, scaleGo_one,
      if_neg (show ¬ THRESHOLD ≤ (5626750755143680 : ℚ) / 2 ^ 49 by
        simp only [THRESHOLD]; norm_num)]
  have hr : rne ((5626750755143680 : ℚ) / 2 ^ 49 * 10 ^ 2) = 1000 :=
    rne_eval_hi (by norm_num) (by norm_num)
  rw [format_bytes_scaled hs (by norm_num),
    if_pos (show (5626750755143680 : ℚ) / 2 ^ 49 < 10 by norm_num),
    decStr, if_neg (by norm_num), hr]
  rfl

/-- Evaluation of `format_bytes 1073741824` (`2 ^ 30` bytes): two exact
divisions by `1024` leave the value `1024` with the last unit `"MiB"`. -/
theorem format_bytes_2pow30_eval : format_bytes 1073741824 = "1024 MiB" := by
  have hnf1 : ⌊(1073741824 : ℚ) / 1024⌋₊ = 1048576 := nfloor_eval (by norm_num) (by norm_num)
  have hm1 : rne ((1073741824 : ℚ) / 1024 * 2 ^ 32) = 4503599627370496 :=
    rne_eval_lo (by norm_num) (by norm_num)
  have hfl1 : fl ((1073741824 : ℚ) / 1024) = (4503599627370496 : ℚ) / 2 ^ 32 :=
    fl_eval (by norm_num) hnf1 rfl (by decide) hm1
  have hnf2 : ⌊(4503599627370496 : ℚ) / 2 ^ 32 / 1024⌋₊ = 1024 :=
    nfloor_eval (by norm_num) (by norm_num)
  have hm2 : rne ((4503599627370496 : ℚ) / 2 ^ 32 / 1024 * 2 ^ 42) = 4503599627370496 :=
    rne_eval_lo (by norm_num) (by norm_num)
  have hfl2 : fl ((4503599627370496 : ℚ) / 2 ^ 32 / 1024) = (4503599627370496 : ℚ) / 2 ^ 42 :=
    fl_eval (by norm_num) hnf2 rfl (by decide) hm2
  have hcast : ((1073741824 : ℕ) : ℚ) = (1073741824 : ℚ) := by norm_num
  have hs : scaleGo 1024 2 ((1073741824 : ℕ) : ℚ) 0 =
      ((4503599627370496 : ℚ) / 2 ^ 42, 2) := by
    rw [hcast, scaleGo_two, if_pos (show THRESHOLD ≤ (1073741824 : ℚ) by
        simp only [THRESHOLD]; norm_num), hfl1, scaleGo_one,
      if_pos (show THRESHOLD ≤ (4503599627370496 : ℚ) / 2 ^ 32 by
        simp only [THRESHOLD]; norm_num), hfl2]
  have hr : rne ((4503599627370496 : ℚ) / 2 ^ 42 * 10 ^ 0) = 1024 :=
    rne_eval_lo (by norm_num) (by norm_num)
  rw [format_bytes_scaled hs (by norm_num),
    if_neg (show ¬ (4503599627370496 : ℚ) / 2 ^ 42 < 10 by norm_num),
    if_neg (show ¬ (4503599627370496 : ℚ) / 2 ^ 42 < 100 by norm_num),
    decStr, if_pos rfl, hr]
  rfl

/-- Evaluation of `format_number 1000000000`: two exact divisions by `1000`
leave the value `1000` with the last suffix `"M"`. -/
theorem format_number_1e9_eval : format_number 1000000000 = "1000M" := by
  have hnf1 : ⌊(1000000000 : ℚ) / 1000⌋₊ = 1000000 := nfloor_eval (by norm_num) (by norm_num)
  have hm1 : rne ((1000000000 : ℚ) / 1000 * 2 ^ 33) = 8589934592000000 :=
    rne_eval_lo (by norm_num) (by norm_num)
  have hfl1 : fl ((1000000000 : ℚ) / 1000) = (8589934592000000 : ℚ) / 2 ^ 33 :=
    fl_eval (by norm_num) hnf1 rfl (by decide) hm1
  have hnf2 : ⌊(8589934592000000 : ℚ) / 2 ^ 33 / 1000⌋₊ = 1000 :=
    nfloor_eval (by norm_num) (by norm_num)
  have hm2 : rne ((8589934592000000 : ℚ) / 2 ^ 33 / 1000 * 2 ^ 43) = 8796093022208000 :=
    rne_eval_lo (by norm_num) (by norm_num)
  have hfl2 : fl ((8589934592000000 : ℚ) / 2 ^ 33 / 1000) = (8796093022208000 : ℚ) / 2 ^ 43 :=
    fl_eval (by norm_num) hnf2 rfl (by decide) hm2
  have hcast : ((1000000000 : ℕ) : ℚ) = (1000000000 : ℚ) := by norm_num
  have hs : scaleGo 1000 2 ((1000000000 : ℕ) : ℚ) 0 =
      ((8796093022208000 : ℚ) / 2 ^ 43, 2) := by
    rw [hcast, scaleGo_two, if_pos (show THRESHOLD ≤ (1000000000 : ℚ) by
        simp only [THRESHOLD]; norm_num), hfl1, scaleGo_one,
      if_pos (show THRESHOLD ≤ (8589934592000000 : ℚ) / 2 ^ 33 by
        simp only [THRESHOLD]; norm_num), hfl2]
  have hr : rne ((8796093022208000 : ℚ) / 2 ^ 43 * 10 ^ 0) = 1000 :=
    rne_eval_lo (by norm_num) (by norm_num)
  rw [format_number_scaled hs (by norm_num),
    if_neg (show ¬ (8796093022208000 : ℚ) / 2 ^ 43 < 10 by norm_num),
    decStr, if_pos rfl, hr]
  rfl

/-- C1: contrary to the claim (and to the doc comment of `format_bytes`,
"Limits the number to a maximum of 4 characters"), the numeric portion of
`format_bytes 10235` is `"10.00"`, which is 5 characters: the exact value
`10235 / 1024 = 9.9951171875` selects the two-decimals branch, and rounding
to two decimals carries it over `10`. -/
theorem format_bytes_numeric_width_bug :
    format_bytes 10235 = "10.00" ++ " " ++ "KiB" ∧ ("10.00" : String).length = 5 :=
  ⟨format_bytes_10235_eval, rfl⟩

/-- C2: scaling is decided once, before display rounding, so `999999` is
divided only once and the rounded value `1000` is shown with the `"K"`
suffix, not re-scaled to `"1.0M"`. -/
theorem format_number_no_rescale_999999 :
    format_number 999999 = "1000K" ∧ format_number 999999 ≠ "1.0M" := by
  refine ⟨format_number_999999_eval, ?_⟩
  rw [format_number_999999_eval]
  decide

/-- C3: both formatters stop scaling once the last unit of their three-entry
table is reached: for every input the final unit index is at most 2 (at most
two divisions) and the unit is drawn from the fixed table; in particular
`format_bytes 1073741824 = "1024 MiB"` and
`format_number 1000000000 = "1000M"`. -/
theorem formatters_cap_at_last_unit :
    (∀ b : ℕ, (scaleGo 1024 (BYTE_UNITS.length - 1) (b : ℚ) 0).2 ≤ 2 ∧
        BYTE_UNITS.getD (scaleGo 1024 (BYTE_UNITS.length - 1) (b : ℚ) 0).2 "" ∈ BYTE_UNITS) ∧
    (∀ n : ℕ, (scaleGo 1000 (NUMBER_UNITS.length - 1) (n : ℚ) 0).2 ≤ 2 ∧
        NUMBER_UNITS.getD (scaleGo 1000 (NUMBER_UNITS.length - 1) (n : ℚ) 0).2 ""
          ∈ NUMBER_UNITS) ∧
    format_bytes 1073741824 = "1024 MiB" ∧ format_number 1000000000 = "1000M" := by
  refine ⟨fun b => ?_, fun n => ?_, format_bytes_2pow30_eval, format_number_1e9_eval⟩
  · have hle : (scaleGo 1024 (BYTE_UNITS.length - 1) (b : ℚ) 0).2 ≤ 2 := by
      simpa using scaleGo_snd_le 1024 (BYTE_UNITS.length - 1) (b : ℚ) 0
    exact ⟨hle, bytes_unit_mem hle⟩
  · have hle : (scaleGo 1000 (NUMBER_UNITS.length - 1) (n : ℚ) 0).2 ≤ 2 := by
      simpa using scaleGo_snd_le 1000 (NUMBER_UNITS.length - 1) (n : ℚ) 0
    exact ⟨hle, number_unit_mem hle⟩

/-- C4: on a present value the optional adapter hands the serializer exactly
the same string as `serialize_number` (same event trace) and returns the
same result. -/
theorem serialize_optional_some_eq {Ok Err : Type} (s : Serializer Ok Err) (n : ℕ) :
    serialize_optional_number (some n) s = serialize_number n s ∧
      serialize_optional_number_effects (some n) = serialize_number_effects n :=
  ⟨rfl, rfl⟩

/-- C5: on an absent value the optional adapter performs the serializer's
absent operation exactly once (its event trace is exactly one `wroteNone`),
writes no string, and never invokes the numeric formatter. -/
theorem serialize_optional_none_frame {Ok Err : Type} (s : Serializer Ok Err) :
    serialize_optional_number none s = s.serializeNone ∧
      serialize_optional_number_effects none = [Effect.wroteNone] ∧
      (∀ t, Effect.wroteStr t ∉ serialize_optional_number_effects (none : Option ℕ)) ∧
      (∀ t, Effect.formatted t ∉ serialize_optional_number_effects (none : Option ℕ)) := by
  refine ⟨rfl, rfl, fun t ht => ?_, fun t ht => ?_⟩ <;>
    simp [serialize_optional_number_effects] at ht

/-- C6: each of the three adapters returns an error exactly when the single
underlying serializer operation it invokes returns an error, surfacing that
serializer-defined error value unchanged, and likewise passes a success
value through unchanged: the adapters introduce no error conditions of
their own. -/
theorem adapters_propagate_errors {Ok Err : Type} (s : Serializer Ok Err)
    (b n m : ℕ) (e : Err) (ok : Ok) :
    (serialize_bytes b s = Except.error e ↔
        s.serializeStr (format_bytes b) = Except.error e) ∧
    (serialize_bytes b s = Except.ok ok ↔
        s.serializeStr (format_bytes b) = Except.ok ok) ∧
    (serialize_number n s = Except.error e ↔
        s.serializeStr (format_number n) = Except.error e) ∧
    (serialize_number n s = Except.ok ok ↔
        s.serializeStr (format_number n) = Except.ok ok) ∧
    (serialize_optional_number (some m) s = Except.error e ↔
        s.serializeStr (format_number m) = Except.error e) ∧
    (serialize_optional_number (some m) s = Except.ok ok ↔
        s.serializeStr (format_number m) = Except.ok ok) ∧
    (serialize_optional_number (none : Option ℕ) s = Except.error e ↔
        s.serializeNone = Except.error e) ∧
    (serialize_optional_number (none : Option ℕ) s = Except.ok ok ↔
        s.serializeNone = Except.ok ok) :=
  ⟨Iff.rfl, Iff.rfl, Iff.rfl, Iff.rfl, Iff.rfl, Iff.rfl, Iff.rfl, Iff.rfl⟩

end CratesIoOgImage
